import Mathlib

/-!
Verification development for the go-zero core primitives:
the time-bucketed rolling window, the adaptive client-side throttle
(Google SRE breaker), the single-flight call coalescer, and the
weighted consistent hash ring.

The Go code is shallowly embedded: structs become structures, Go int64
becomes Int, Go float64 arithmetic on the (exactly representable) small
values used here is modelled over the rationals, slices become lists,
the map from hash values to node buckets becomes a function to lists,
and the thread-safe probability source is abstracted as a Boolean draw
function of the requested probability.
-/

set_option maxHeartbeats 1000000

/-- Errors surfaced by the breaker: the service-unavailable rejection and
opaque user errors produced by the caller's request function. -/
inductive Err where
  | serviceUnavailable
  | user (n : Nat)
deriving DecidableEq

namespace breaker

/-- Source constant: sensitivity of the throttle, k = 1.5. -/
def k : ℚ := 1.5

/-- Source constant: protection = 5, suppresses throttling under low traffic. -/
def protection : Int := 5

/-- The drop ratio computed by googleBreaker.accept:
math.Max(0, (float64(total-protection) - k*float64(accepts)) / float64(total+1)). -/
def dropRatio (accepts total : Int) : ℚ :=
  let weightedAccepts : ℚ := k * (accepts : ℚ)
  max 0 ((((total - protection : Int) : ℚ) - weightedAccepts) / (((total + 1 : Int)) : ℚ))

/-- googleBreaker.accept: reads (accepts, total) from the window history,
computes the drop ratio, admits unconditionally when the ratio is not
positive and otherwise consults the probability source, rejecting with
ErrServiceUnavailable exactly when the draw comes back true.  The
probability source (mathx.Proba.TrueOnProba) is abstracted as the Boolean
function draw of the requested probability. -/
def accept (accepts total : Int) (draw : ℚ → Bool) : Option Err :=
  let ratio := dropRatio accepts total
  if ratio ≤ 0 then none
  else if draw ratio then some Err.serviceUnavailable else none

/-- The two ways a request records into the rolling window:
markSuccess is stat.Add(1), markFailure is stat.Add(0). -/
inductive Mark where
  | success
  | failure
deriving DecidableEq

/-- googleBreaker.doReq.  The admission decision adm is the result of
accept (none = admitted).  The request body req either returns an error
value (.ok e, where e = none is the nil error) or panics (.error ()).
The result is the returned error, or a propagated panic; the second
component lists the marks recorded into the rolling window, in order. -/
def doReq (adm : Option Err) (req : Except Unit (Option Err))
    (fallback : Option (Err → Option Err)) (acceptable : Option Err → Bool) :
    Except Unit (Option Err) × List Mark :=
  match adm with
  | some e =>
    match fallback with
    | some fb => (Except.ok (fb e), [])
    | none => (Except.ok (some e), [])
  | none =>
    match req with
    | Except.error _ => (Except.error (), [Mark.failure])
    | Except.ok err =>
      if acceptable err then (Except.ok err, [Mark.success])
      else (Except.ok err, [Mark.failure])

end breaker

namespace collection

/-- One time slot of the rolling window, holding a sum and a count. -/
structure Bucket where
  Sum : ℚ
  Count : Int
deriving DecidableEq

/-- Bucket.add: accumulate v into the sum and bump the count. -/
def Bucket.add (b : Bucket) (v : ℚ) : Bucket :=
  { Sum := b.Sum + v, Count := b.Count + 1 }

/-- The reset bucket value: Bucket.reset zeroes both fields. -/
def Bucket.zero : Bucket := { Sum := 0, Count := 0 }

/-- window.add: w.buckets[offset % w.size].add(v), with size the length of
the bucket slice. -/
def window.add (buckets : List Bucket) (size offset : Nat) (v : ℚ) : List Bucket :=
  buckets.set (offset % size) ((buckets.getD (offset % size) Bucket.zero).add v)

/-- window.resetBucket: w.buckets[offset % w.size].reset(). -/
def window.resetBucket (buckets : List Bucket) (size offset : Nat) : List Bucket :=
  buckets.set (offset % size) Bucket.zero

/-- window.resetBucket in the split-loop variant file: w.buckets[offset].reset(),
indexing directly without the modulus. -/
def window.resetBucketDirect (buckets : List Bucket) (offset : Nat) : List Bucket :=
  buckets.set offset Bucket.zero

/-- window.reduce visits buckets (start+i) % size for i < count, in order;
this returns the visited buckets as a list. -/
def window.reduceList (buckets : List Bucket) (size start count : Nat) : List Bucket :=
  (List.range count).map (fun i => buckets.getD ((start + i) % size) Bucket.zero)

/-- RollingWindow state: size buckets over the given interval, the current
bucket position and the start instant of the current bucket.  Durations are
Go int64 nanosecond counts, modelled as Int. -/
structure RollingWindow where
  size : Nat
  buckets : List Bucket
  interval : Int
  offset : Nat
  ignoreCurrent : Bool
  lastTime : Int
deriving DecidableEq

/-- RollingWindow.span: int(timex.Since(rw.lastTime) / rw.interval), Go
division truncating toward zero; returns the quotient when it lies in
[0, size), otherwise size. -/
def RollingWindow.span (rw : RollingWindow) (now : Int) : Nat :=
  let offset := (now - rw.lastTime).tdiv rw.interval
  if 0 ≤ offset ∧ offset < (rw.size : Int) then offset.toNat else rw.size

/-- RollingWindow.updateOffset (canonical modular variant): when span > 0,
reset the span buckets at positions (offset+i+1) % size for i < span, advance
offset to (offset + span) % size, and align lastTime to an interval boundary:
lastTime := now - (now - lastTime) % interval (Go % = truncated remainder). -/
def RollingWindow.updateOffset (rw : RollingWindow) (now : Int) : RollingWindow :=
  let span := rw.span now
  if span = 0 then rw
  else
    let buckets := (List.range span).foldl
      (fun bs i => window.resetBucket bs rw.size ((rw.offset + i + 1) % rw.size)) rw.buckets
    { rw with
      buckets := buckets
      offset := (rw.offset + span) % rw.size
      lastTime := now - (now - rw.lastTime).tmod rw.interval }

/-- RollingWindow.Add: rotate via updateOffset, then accumulate v into the
current bucket. -/
def RollingWindow.Add (rw : RollingWindow) (now : Int) (v : ℚ) : RollingWindow :=
  let rw1 := rw.updateOffset now
  { rw1 with buckets := window.add rw1.buckets rw1.size rw1.offset v }

/-- RollingWindow.Reduce: computes span read-only, reports size-1 buckets when
span = 0 under the ignore-current option and size-span otherwise, starting at
(offset + span + 1) % size; this returns the visited buckets in order. -/
def RollingWindow.reduceVisited (rw : RollingWindow) (now : Int) : List Bucket :=
  let span := rw.span now
  let diff := if span = 0 ∧ rw.ignoreCurrent then rw.size - 1 else rw.size - span
  if 0 < diff then
    window.reduceList rw.buckets rw.size ((rw.offset + span + 1) % rw.size) diff
  else []

/-- RollingWindow.updateOffset, split-loop variant: resets the aged-out
buckets with two plain loops (start..steps-1, then 0..remainder-1), tracks the
final offset through the loop variable, and stores the raw clock reading
timex.Now() into lastTime without aligning it. -/
def RollingWindow.updateOffsetSplit (rw : RollingWindow) (now : Int) : RollingWindow :=
  let span := rw.span now
  if 0 < span then
    let start := rw.offset + 1
    let steps0 := start + span
    let remainder := if steps0 > rw.size then steps0 - rw.size else 0
    let steps := if steps0 > rw.size then rw.size else steps0
    let p1 := (List.range' start (steps - start)).foldl
      (fun p i => (window.resetBucketDirect p.1 i, i)) (rw.buckets, rw.offset)
    let p2 := (List.range remainder).foldl
      (fun p i => (window.resetBucketDirect p.1 i, i)) p1
    { rw with buckets := p2.1, offset := p2.2, lastTime := now }
  else rw

end collection

namespace syncx

/-- Events on the executing path of sharedGroup.Do / DoEx for one key:
lock operations on the group mutex, insertion and deletion of the key in the
call index, storing the call result, releasing the record's WaitGroup
(the completion signal), and re-raising a panic. -/
inductive CallEvent where
  | lockAcquire
  | insertKey
  | lockRelease
  | setResult
  | deleteKey
  | wgDone
  | repanic
deriving DecidableEq

/-- The event trace of sharedGroup.makeCall: run fn (storing its result on
normal return), then, in a deferred block that also runs when fn panics,
take the group lock, delete the key from the index, release the lock, and
only then call wg.Done(); a panic is re-raised after the cleanup. -/
def makeCallTrace (outcome : Except Unit Unit) : List CallEvent :=
  match outcome with
  | Except.ok _ =>
    [CallEvent.setResult, CallEvent.lockAcquire, CallEvent.deleteKey,
     CallEvent.lockRelease, CallEvent.wgDone]
  | Except.error _ =>
    [CallEvent.lockAcquire, CallEvent.deleteKey,
     CallEvent.lockRelease, CallEvent.wgDone, CallEvent.repanic]

/-- The event trace of the executing path of Do/DoEx: createCall inserts the
key under the group lock (wg.Add(1) happens before the insert), then
makeCall runs to completion. -/
def doExecTrace (outcome : Except Unit Unit) : List CallEvent :=
  [CallEvent.lockAcquire, CallEvent.insertKey, CallEvent.lockRelease]
    ++ makeCallTrace outcome

/-- Observable state for one key: whether the key currently maps to the call
record in the group's index, and whether the record's completion signal has
been released. -/
structure GroupState where
  hasKey : Bool
  doneSignalled : Bool
deriving DecidableEq

/-- How each event changes the observable state. -/
def stepEvent (s : GroupState) : CallEvent → GroupState
  | CallEvent.insertKey => { s with hasKey := true }
  | CallEvent.deleteKey => { s with hasKey := false }
  | CallEvent.wgDone => { s with doneSignalled := true }
  | _ => s

end syncx

namespace hash

/-- Source constants: TopWeight = 100, minReplicas = 100. -/
def minReplicas : Nat := 100

/-- ConsistentHash state.  Nodes are taken as strings with repr the identity
(mapping.Repr is the identity on strings); hash values are Nat; the Go map
from hash value to its node bucket is a function that is empty by default,
and the node set is a duplicate-free list. -/
structure ConsistentHash where
  hashFunc : String → Nat
  replicas : Nat
  keys : List Nat
  ring : Nat → List String
  nodes : List String

/-- NewCustomConsistentHash: replicas below minReplicas are raised to it. -/
def NewCustomConsistentHash (replicas : Nat) (fn : String → Nat) : ConsistentHash :=
  { hashFunc := fn
    replicas := if replicas < minReplicas then minReplicas else replicas
    keys := []
    ring := fun _ => []
    nodes := [] }

/-- containsNode: membership test in the node set. -/
def ConsistentHash.containsNode (h : ConsistentHash) (nodeRepr : String) : Bool :=
  h.nodes.contains nodeRepr

/-- addNode: insert the node repr into the node set (a map insert: no
duplicate is created when it is already present). -/
def ConsistentHash.addNode (h : ConsistentHash) (nodeRepr : String) : ConsistentHash :=
  { h with nodes := if h.nodes.contains nodeRepr then h.nodes else nodeRepr :: h.nodes }

/-- removeNode: delete the node repr from the node set. -/
def ConsistentHash.removeNode (h : ConsistentHash) (nodeRepr : String) : ConsistentHash :=
  { h with nodes := h.nodes.erase nodeRepr }

/-- sort.Search(len(keys), fun i => keys[i] >= hash) on a sorted slice: the
least index whose key is ≥ hash, or the length when there is none. -/
def lowerBound : List Nat → Nat → Nat
  | [], _ => 0
  | a :: t, x => if a ≥ x then 0 else lowerBound t x + 1

/-- removeRingNode: filter the node out of the bucket at the given hash;
an emptied bucket is deleted from the map, which in the function model is
the same as holding the empty list. -/
def ConsistentHash.removeRingNode (h : ConsistentHash) (hsh : Nat) (nodeRepr : String) :
    ConsistentHash :=
  { h with ring := fun x =>
      if x = hsh then (h.ring hsh).filter (fun y => y != nodeRepr) else h.ring x }

/-- One iteration of the Remove loop: recompute the virtual hash, erase the
first key ≥ it (when such a key exists), and scrub the ring bucket. -/
def removeStep (node : String) (g : ConsistentHash) (i : Nat) : ConsistentHash :=
  let hsh := g.hashFunc (node ++ toString i)
  let idx := lowerBound g.keys hsh
  let g1 := if idx < g.keys.length then { g with keys := g.keys.eraseIdx idx } else g
  g1.removeRingNode hsh node

/-- ConsistentHash.Remove: when the node is present, run the loop over the
replica indices and then delete the node from the node set. -/
def ConsistentHash.Remove (h : ConsistentHash) (node : String) : ConsistentHash :=
  if h.containsNode node then
    ((List.range h.replicas).foldl (removeStep node) h).removeNode node
  else h

/-- One iteration of the AddWithReplicas loop: append the virtual hash to
keys and append the node to the bucket at that hash. -/
def addStep (node : String) (g : ConsistentHash) (i : Nat) : ConsistentHash :=
  let hsh := g.hashFunc (node ++ toString i)
  { g with
    keys := g.keys ++ [hsh]
    ring := fun x => if x = hsh then g.ring hsh ++ [node] else g.ring x }

/-- ConsistentHash.AddWithReplicas: remove any prior entry, truncate the
replica count from above by the ring default, register the node, insert the
virtual positions, and re-sort keys ascending. -/
def ConsistentHash.AddWithReplicas (h : ConsistentHash) (node : String) (replicas : Int) :
    ConsistentHash :=
  let h1 := h.Remove node
  let reps := if replicas > (h1.replicas : Int) then (h1.replicas : Int) else replicas
  let h2 := h1.addNode node
  let h3 := (List.range reps.toNat).foldl (addStep node) h2
  { h3 with keys := h3.keys.mergeSort }

/-- ConsistentHash.Add: insert with the ring's default replica count. -/
def ConsistentHash.Add (h : ConsistentHash) (node : String) : ConsistentHash :=
  h.AddWithReplicas node (h.replicas : Int)

end hash

section windowHelpers

open collection

/-- getD after set, at an in-range read position. -/
theorem getD_set_of_lt {α : Type} (bs : List α) (i j : Nat) (x d : α)
    (hj : j < bs.length) :
    (bs.set i x).getD j d = if i = j then x else bs.getD j d := by
  simp only [List.getD_eq_getElem?_getD, List.getElem?_set]
  by_cases h : i = j
  · subst h
    rw [if_pos rfl, if_pos rfl, if_pos hj]
    rfl
  · rw [if_neg h, if_neg h]

/-- Folding set over a list of positions keeps the length. -/
theorem setAll_length {α : Type} (ps : List Nat) (bs : List α) (z : α) :
    (ps.foldl (fun b p => b.set p z) bs).length = bs.length := by
  induction ps generalizing bs with
  | nil => rfl
  | cons p t ih => simp [ih]

/-- Folding set over a list of positions writes z exactly at the listed
positions and leaves every other in-range position unchanged. -/
theorem setAll_getD {α : Type} (ps : List Nat) (bs : List α) (z d : α) (j : Nat)
    (hj : j < bs.length) :
    (ps.foldl (fun b p => b.set p z) bs).getD j d = if j ∈ ps then z else bs.getD j d := by
  induction ps generalizing bs with
  | nil => simp
  | cons p t ih =>
    rw [List.foldl_cons]
    rw [ih (bs.set p z) (by simpa using hj)]
    by_cases hjt : j ∈ t
    · simp [hjt]
    · rw [if_neg hjt]
      rw [getD_set_of_lt bs p j z d hj]
      by_cases hjp : j = p
      · subst hjp
        simp
      · rw [if_neg (fun h => hjp h.symm)]
        rw [if_neg (by simpa [hjp] using hjt)]

/-- Two positions lists with the same members fold-set to the same list. -/
theorem setAll_congr_mem {α : Type} (ps qs : List Nat) (bs : List α) (z : α)
    (h : ∀ j, j ∈ ps ↔ j ∈ qs) :
    ps.foldl (fun b p => b.set p z) bs = qs.foldl (fun b p => b.set p z) bs := by
  apply List.ext_getElem
  · rw [setAll_length, setAll_length]
  · intro i h1 h2
    have hi : i < bs.length := by
      have := h1
      rwa [setAll_length] at this
    have e1 := setAll_getD ps bs z (bs.getD 0 z) i hi
    have e2 := setAll_getD qs bs z (bs.getD 0 z) i hi
    rw [List.getD_eq_getElem?_getD, List.getElem?_eq_getElem h1] at e1
    rw [List.getD_eq_getElem?_getD, List.getElem?_eq_getElem h2] at e2
    simp only [Option.getD_some] at e1 e2
    rw [e1, e2]
    exact if_congr (h i) rfl rfl

/-- The canonical reset loop is a fold of plain set over the modular
positions list. -/
theorem resetLoop_eq_setAll (bs : List collection.Bucket) (N offset span : Nat) :
    (List.range span).foldl
        (fun b i => window.resetBucket b N ((offset + i + 1) % N)) bs
      = ((List.range span).map (fun i => (offset + i + 1) % N % N)).foldl
          (fun b p => b.set p Bucket.zero) bs := by
  rw [List.foldl_map]
  rfl

/-- Membership in the modular reset-positions list. -/
theorem mem_resetPositions (N offset span j : Nat) :
    (j ∈ (List.range span).map (fun i => (offset + i + 1) % N % N))
      ↔ ∃ i, i < span ∧ j = (offset + i + 1) % N := by
  simp only [List.mem_map, List.mem_range, Nat.mod_mod]
  constructor
  · rintro ⟨i, hi, hj⟩
    exact ⟨i, hi, hj.symm⟩
  · rintro ⟨i, hi, hj⟩
    exact ⟨i, hi, hj.symm⟩

/-- Reindexing the reset set: positions (offset+i+1) % N for i < span are the
positions (offset+i) % N for 1 ≤ i ≤ span. -/
theorem resetSet_reindex (N offset span j : Nat) :
    (∃ i, i < span ∧ j = (offset + i + 1) % N)
      ↔ ∃ i, 1 ≤ i ∧ i ≤ span ∧ j = (offset + i) % N := by
  constructor
  · rintro ⟨i, hi, hj⟩
    refine ⟨i + 1, by omega, by omega, ?_⟩
    have harg : offset + (i + 1) = offset + i + 1 := by omega
    rw [harg]
    exact hj
  · rintro ⟨i, h1, h2, hj⟩
    refine ⟨i - 1, by omega, ?_⟩
    have harg : offset + (i - 1) + 1 = offset + i := by omega
    rw [harg]
    exact hj

/-- updateOffset does not change the interval. -/
theorem updateOffset_interval (rw : collection.RollingWindow) (now : Int) :
    (rw.updateOffset now).interval = rw.interval := by
  simp only [collection.RollingWindow.updateOffset]
  split <;> rfl

/-- Add does not change the interval. -/
theorem Add_interval (rw : collection.RollingWindow) (now : Int) (v : ℚ) :
    (rw.Add now v).interval = rw.interval :=
  updateOffset_interval rw now

/-- One rotation moves lastTime by a multiple of the interval. -/
theorem updateOffset_lastTime_dvd (rw : collection.RollingWindow) (now : Int) :
    rw.interval ∣ ((rw.updateOffset now).lastTime - rw.lastTime) := by
  simp only [collection.RollingWindow.updateOffset]
  split
  · simp
  · show rw.interval ∣ (now - (now - rw.lastTime).tmod rw.interval - rw.lastTime)
    have h : now - (now - rw.lastTime).tmod rw.interval - rw.lastTime
        = rw.interval * ((now - rw.lastTime).tdiv rw.interval) := by
      rw [Int.tmod_def]
      ring
    rw [h]
    exact Dvd.intro _ rfl

/-- One Add moves lastTime by a multiple of the interval. -/
theorem Add_lastTime_dvd (rw : collection.RollingWindow) (now : Int) (v : ℚ) :
    rw.interval ∣ ((rw.Add now v).lastTime - rw.lastTime) :=
  updateOffset_lastTime_dvd rw now

/-- Over any trace of Add calls, lastTime stays congruent to its starting
value modulo the interval. -/
theorem foldAdd_lastTime_dvd (trace : List (Int × ℚ)) :
    ∀ s : collection.RollingWindow,
      s.interval ∣
        ((trace.foldl (fun s p => collection.RollingWindow.Add s p.1 p.2) s).lastTime
          - s.lastTime) := by
  induction trace with
  | nil =>
    intro s
    simp
  | cons p t ih =>
    intro s
    rw [List.foldl_cons]
    have h1 := Add_lastTime_dvd s p.1 p.2
    have h2 := ih (s.Add p.1 p.2)
    rw [Add_interval] at h2
    have h3 := dvd_add h2 h1
    rwa [sub_add_sub_cancel] at h3

/-- span never exceeds the bucket count. -/
theorem span_le_size (rw : collection.RollingWindow) (now : Int) :
    rw.span now ≤ rw.size := by
  simp only [collection.RollingWindow.span]
  split
  · rename_i h
    omega
  · exact le_refl _

/-- The bucket component of the split reset loops is a fold of plain set. -/
theorem pairFold_fst (l : List Nat) :
    ∀ (p : List collection.Bucket × Nat),
      ((l.foldl (fun p i => (collection.window.resetBucketDirect p.1 i, i)) p).1)
        = l.foldl (fun b i => b.set i collection.Bucket.zero) p.1 := by
  induction l with
  | nil => intro p; rfl
  | cons a t ih =>
    intro p
    rw [List.foldl_cons, List.foldl_cons]
    exact ih (collection.window.resetBucketDirect p.1 a, a)

/-- The offset component of the split reset loops is the fold that keeps the
last loop index. -/
theorem pairFold_snd (l : List Nat) :
    ∀ (p : List collection.Bucket × Nat),
      ((l.foldl (fun p i => (collection.window.resetBucketDirect p.1 i, i)) p).2)
        = l.foldl (fun _ i => i) p.2 := by
  induction l with
  | nil => intro p; rfl
  | cons a t ih =>
    intro p
    rw [List.foldl_cons, List.foldl_cons]
    exact ih (collection.window.resetBucketDirect p.1 a, a)

/-- Keeping the last element of range' s n, starting from a. -/
theorem foldl_last_range' (n : Nat) :
    ∀ (s0 a : Nat), (List.range' s0 n).foldl (fun _ i => i) a
      = if n = 0 then a else s0 + n - 1 := by
  induction n with
  | zero => intro s0 a; rfl
  | succ m ih =>
    intro s0 a
    rw [List.range'_succ, List.foldl_cons, ih (s0 + 1) s0]
    by_cases hm : m = 0
    · simp [hm]
    · rw [if_neg hm, if_neg (Nat.succ_ne_zero m)]
      omega

/-- Keeping the last element of range n, starting from a. -/
theorem foldl_last_range (n a : Nat) :
    (List.range n).foldl (fun _ i => i) a = if n = 0 then a else n - 1 := by
  rw [List.range_eq_range', foldl_last_range' n 0 a]
  by_cases hn : n = 0
  · simp [hn]
  · rw [if_neg hn, if_neg hn]
    omega

/-- Membership in range' with step 1, as an interval. -/
theorem mem_range'_iff (j a len : Nat) :
    j ∈ List.range' a len ↔ a ≤ j ∧ j < a + len := by
  rw [List.mem_range']
  constructor
  · rintro ⟨i, hi, rfl⟩
    omega
  · intro h
    exact ⟨j - a, by omega, by omega⟩

/-- The positions visited by the split reset loops are exactly the modular
reset positions, for offset < N and 1 ≤ span ≤ N. -/
theorem splitPositions_mem_iff (N off s j : Nat)
    (hoff : off < N) (hs1 : 1 ≤ s) (hsN : s ≤ N) :
    (j ∈ List.range' (off + 1) ((if off + 1 + s > N then N else off + 1 + s) - (off + 1))
        ++ List.range (if off + 1 + s > N then off + 1 + s - N else 0))
      ↔ ∃ i, i < s ∧ j = (off + i + 1) % N := by
  rw [List.mem_append, mem_range'_iff, List.mem_range]
  by_cases hw : off + 1 + s > N
  · rw [if_pos hw, if_pos hw]
    constructor
    · rintro (⟨h1, h2⟩ | h3)
      · refine ⟨j - off - 1, by omega, ?_⟩
        have e : off + (j - off - 1) + 1 = j := by omega
        rw [e, Nat.mod_eq_of_lt (by omega)]
      · refine ⟨j + N - off - 1, by omega, ?_⟩
        have e : off + (j + N - off - 1) + 1 = j + N := by omega
        rw [e, Nat.mod_eq_sub_mod (by omega)]
        have e2 : j + N - N = j := by omega
        rw [e2, Nat.mod_eq_of_lt (by omega)]
    · rintro ⟨i, hi, rfl⟩
      by_cases hx : off + i + 1 < N
      · left
        rw [Nat.mod_eq_of_lt hx]
        omega
      · right
        rw [Nat.mod_eq_sub_mod (by omega)]
        rw [Nat.mod_eq_of_lt (by omega)]
        omega
  · rw [if_neg hw, if_neg hw]
    constructor
    · rintro (⟨h1, h2⟩ | h3)
      · refine ⟨j - off - 1, by omega, ?_⟩
        have e : off + (j - off - 1) + 1 = j := by omega
        rw [e, Nat.mod_eq_of_lt (by omega)]
      · exact absurd h3 (by omega)
    · rintro ⟨i, hi, rfl⟩
      left
      rw [Nat.mod_eq_of_lt (by omega)]
      omega


end windowHelpers

section ringHelpers

/-- On a sorted list containing x, the sort.Search index is in range and
erasing at it erases exactly the first occurrence of x. -/
theorem lowerBound_erase {l : List Nat} {x : Nat}
    (hs : l.Sorted (· ≤ ·)) (hx : x ∈ l) :
    hash.lowerBound l x < l.length ∧ l.eraseIdx (hash.lowerBound l x) = l.erase x := by
  induction l with
  | nil => cases hx
  | cons a t ih =>
    rw [List.sorted_cons] at hs
    by_cases hax : a ≥ x
    · have hae : a = x := by
        rcases List.mem_cons.mp hx with h | h
        · omega
        · have := hs.1 x h
          omega
      subst hae
      constructor
      · simp [hash.lowerBound]
      · simp [hash.lowerBound]
    · have hxt : x ∈ t := by
        rcases List.mem_cons.mp hx with h | h
        · omega
        · exact h
      obtain ⟨ih1, ih2⟩ := ih hs.2 hxt
      constructor
      · simp only [hash.lowerBound, if_neg hax, List.length_cons]
        omega
      · simp only [hash.lowerBound, if_neg hax]
        rw [List.eraseIdx_cons_succ, ih2,
          List.erase_cons_tail (by simp only [beq_iff_eq]; omega)]

/-- removeStep does not change the hash function. -/
theorem removeStep_hashFunc (node : String) (g : hash.ConsistentHash) (i : Nat) :
    (hash.removeStep node g i).hashFunc = g.hashFunc := by
  simp only [hash.removeStep, hash.ConsistentHash.removeRingNode]
  split <;> rfl

/-- removeStep does not change the replica count. -/
theorem removeStep_replicas (node : String) (g : hash.ConsistentHash) (i : Nat) :
    (hash.removeStep node g i).replicas = g.replicas := by
  simp only [hash.removeStep, hash.ConsistentHash.removeRingNode]
  split <;> rfl

/-- removeStep does not change the node set. -/
theorem removeStep_nodes (node : String) (g : hash.ConsistentHash) (i : Nat) :
    (hash.removeStep node g i).nodes = g.nodes := by
  simp only [hash.removeStep, hash.ConsistentHash.removeRingNode]
  split <;> rfl

/-- The bucket map after removeStep: the bucket at the recomputed hash is
filtered, every other bucket is unchanged. -/
theorem removeStep_ring_apply (node : String) (g : hash.ConsistentHash) (i : Nat)
    (hsh : Nat) :
    (hash.removeStep node g i).ring hsh
      = if hsh = g.hashFunc (node ++ toString i)
        then (g.ring (g.hashFunc (node ++ toString i))).filter (fun y => y != node)
        else g.ring hsh := by
  simp only [hash.removeStep, hash.ConsistentHash.removeRingNode]
  have hring : (if hash.lowerBound g.keys (g.hashFunc (node ++ toString i)) < g.keys.length
      then { g with
        keys := g.keys.eraseIdx (hash.lowerBound g.keys (g.hashFunc (node ++ toString i))) }
      else g).ring = g.ring := by
    split <;> rfl
  rw [hring]

/-- The keys after removeStep, when the recomputed hash is present in the
sorted key list: its first occurrence is erased. -/
theorem removeStep_keys (node : String) (g : hash.ConsistentHash) (i : Nat)
    (hs : g.keys.Sorted (· ≤ ·)) (hx : g.hashFunc (node ++ toString i) ∈ g.keys) :
    (hash.removeStep node g i).keys = g.keys.erase (g.hashFunc (node ++ toString i)) := by
  obtain ⟨h1, h2⟩ := lowerBound_erase hs hx
  simp only [hash.removeStep, hash.ConsistentHash.removeRingNode, if_pos h1]
  exact h2

/-- The Remove loop does not change the hash function. -/
theorem removeLoop_hashFunc (node : String) (l : List Nat) :
    ∀ g : hash.ConsistentHash,
      ((l.foldl (hash.removeStep node) g).hashFunc) = g.hashFunc := by
  induction l with
  | nil => intro g; rfl
  | cons a t ih =>
    intro g
    rw [List.foldl_cons, ih, removeStep_hashFunc]

/-- The Remove loop does not change the replica count. -/
theorem removeLoop_replicas (node : String) (l : List Nat) :
    ∀ g : hash.ConsistentHash,
      ((l.foldl (hash.removeStep node) g).replicas) = g.replicas := by
  induction l with
  | nil => intro g; rfl
  | cons a t ih =>
    intro g
    rw [List.foldl_cons, ih, removeStep_replicas]

/-- The Remove loop does not change the node set. -/
theorem removeLoop_nodes (node : String) (l : List Nat) :
    ∀ g : hash.ConsistentHash,
      ((l.foldl (hash.removeStep node) g).nodes) = g.nodes := by
  induction l with
  | nil => intro g; rfl
  | cons a t ih =>
    intro g
    rw [List.foldl_cons, ih, removeStep_nodes]

/-- Running the Remove loop over index list l, when the keys are sorted, are
a permutation of base plus the recomputed hashes of l, and none of those
hashes occurs in base, erases exactly those hashes: the remaining keys are a
permutation of base. -/
theorem removeLoop_keys_perm (node : String) (l : List Nat) :
    ∀ (g : hash.ConsistentHash) (base : List Nat),
      g.keys.Sorted (· ≤ ·) →
      g.keys.Perm (base ++ l.map (fun i => g.hashFunc (node ++ toString i))) →
      (∀ i ∈ l, g.hashFunc (node ++ toString i) ∉ base) →
      ((l.foldl (hash.removeStep node) g).keys).Perm base := by
  induction l with
  | nil =>
    intro g base hs hp hb
    simpa using hp
  | cons a t ih =>
    intro g base hs hp hb
    rw [List.foldl_cons]
    have hx : g.hashFunc (node ++ toString a) ∈ g.keys := by
      apply hp.mem_iff.mpr
      rw [List.map_cons]
      exact List.mem_append_right _ (List.mem_cons_self _ _)
    have hkeys1 := removeStep_keys node g a hs hx
    have hsorted1 : ((hash.removeStep node g a).keys).Sorted (· ≤ ·) := by
      rw [hkeys1]
      exact List.Pairwise.sublist (List.erase_sublist _ _) hs
    have hperm1 : ((hash.removeStep node g a).keys).Perm
        (base ++ t.map (fun i => (hash.removeStep node g a).hashFunc (node ++ toString i))) := by
      rw [hkeys1]
      simp only [removeStep_hashFunc]
      have e1 : (base ++ List.map (fun i => g.hashFunc (node ++ toString i)) (a :: t)).erase
            (g.hashFunc (node ++ toString a))
          = base ++ List.map (fun i => g.hashFunc (node ++ toString i)) t := by
        rw [List.map_cons, List.erase_append_right _ (hb a (List.mem_cons_self a t)),
          List.erase_cons_head]
      have e2 := hp.erase (g.hashFunc (node ++ toString a))
      rwa [e1] at e2
    have hb1 : ∀ i ∈ t, (hash.removeStep node g a).hashFunc (node ++ toString i) ∉ base := by
      intro i hi
      rw [removeStep_hashFunc]
      exact hb i (List.mem_cons_of_mem a hi)
    exact ih (hash.removeStep node g a) base hsorted1 hperm1 hb1

/-- After the Remove loop, the node is absent from every bucket whose hash is
one of the recomputed hashes, and a bucket still holding the node held it
before the loop. -/
theorem removeLoop_ring (node : String) (l : List Nat) :
    ∀ (g : hash.ConsistentHash) (hsh : Nat),
      node ∈ ((l.foldl (hash.removeStep node) g).ring hsh) →
      node ∈ g.ring hsh ∧ ∀ i ∈ l, hsh ≠ g.hashFunc (node ++ toString i) := by
  induction l with
  | nil =>
    intro g hsh h
    exact ⟨h, by simp⟩
  | cons a t ih =>
    intro g hsh h
    rw [List.foldl_cons] at h
    obtain ⟨h1, h2⟩ := ih (hash.removeStep node g a) hsh h
    simp only [removeStep_hashFunc] at h2
    rw [removeStep_ring_apply] at h1
    by_cases he : hsh = g.hashFunc (node ++ toString a)
    · rw [if_pos he] at h1
      have hmem := List.mem_filter.mp h1
      exact absurd hmem.2 (by simp)
    · rw [if_neg he] at h1
      refine ⟨h1, ?_⟩
      intro i hi
      rcases List.mem_cons.mp hi with rfl | hit
      · exact he
      · exact h2 i hit

/-- addStep appends the recomputed hash to keys. -/
theorem addStep_keys (node : String) (g : hash.ConsistentHash) (i : Nat) :
    (hash.addStep node g i).keys = g.keys ++ [g.hashFunc (node ++ toString i)] := rfl

/-- addStep does not change the hash function. -/
theorem addStep_hashFunc (node : String) (g : hash.ConsistentHash) (i : Nat) :
    (hash.addStep node g i).hashFunc = g.hashFunc := rfl

/-- The Add loop appends the recomputed hashes of the index list to keys. -/
theorem addLoop_keys (node : String) (l : List Nat) :
    ∀ g : hash.ConsistentHash,
      ((l.foldl (hash.addStep node) g).keys)
        = g.keys ++ l.map (fun i => g.hashFunc (node ++ toString i)) := by
  induction l with
  | nil => intro g; simp
  | cons a t ih =>
    intro g
    rw [List.foldl_cons, ih, addStep_keys]
    simp only [addStep_hashFunc]
    rw [List.map_cons, List.append_assoc, List.singleton_append]

/-- The Add loop does not change the node set. -/
theorem addLoop_nodes (node : String) (l : List Nat) :
    ∀ g : hash.ConsistentHash,
      ((l.foldl (hash.addStep node) g).nodes) = g.nodes := by
  induction l with
  | nil => intro g; rfl
  | cons a t ih =>
    intro g
    rw [List.foldl_cons, ih]
    rfl

/-- The Add loop does not change the hash function. -/
theorem addLoop_hashFunc (node : String) (l : List Nat) :
    ∀ g : hash.ConsistentHash,
      ((l.foldl (hash.addStep node) g).hashFunc) = g.hashFunc := by
  induction l with
  | nil => intro g; rfl
  | cons a t ih =>
    intro g
    rw [List.foldl_cons, ih]
    rfl

/-- The Add loop does not change the replica count. -/
theorem addLoop_replicas (node : String) (l : List Nat) :
    ∀ g : hash.ConsistentHash,
      ((l.foldl (hash.addStep node) g).replicas) = g.replicas := by
  induction l with
  | nil => intro g; rfl
  | cons a t ih =>
    intro g
    rw [List.foldl_cons, ih]
    rfl

/-- A member of a bucket after the Add loop was already there, or is the
added node at one of the recomputed hashes. -/
theorem addLoop_ring (node : String) (l : List Nat) :
    ∀ (g : hash.ConsistentHash) (hsh : Nat) (m : String),
      m ∈ ((l.foldl (hash.addStep node) g).ring hsh) →
      m ∈ g.ring hsh ∨ (m = node ∧ ∃ i ∈ l, hsh = g.hashFunc (node ++ toString i)) := by
  induction l with
  | nil =>
    intro g hsh m h
    exact Or.inl h
  | cons a t ih =>
    intro g hsh m h
    rw [List.foldl_cons] at h
    rcases ih (hash.addStep node g a) hsh m h with h1 | ⟨hm, i, hi, hh⟩
    · simp only [hash.addStep] at h1
      by_cases he : hsh = g.hashFunc (node ++ toString a)
      · rw [if_pos he] at h1
        rcases List.mem_append.mp h1 with h2 | h2
        · left
          rw [he]
          exact h2
        · right
          refine ⟨by simpa using h2, a, List.mem_cons_self a t, he⟩
      · rw [if_neg he] at h1
        exact Or.inl h1
    · right
      simp only [addStep_hashFunc] at hh
      exact ⟨hm, i, List.mem_cons_of_mem a hi, hh⟩

/-- The registered node is in the node set after addNode. -/
theorem mem_addNode (g : hash.ConsistentHash) (r : String) :
    r ∈ (g.addNode r).nodes := by
  simp only [hash.ConsistentHash.addNode]
  split
  · rename_i hc
    exact List.elem_iff.mp hc
  · exact List.mem_cons_self _ _

/-- Remove does not change the hash function. -/
theorem Remove_hashFunc (h : hash.ConsistentHash) (node : String) :
    (h.Remove node).hashFunc = h.hashFunc := by
  simp only [hash.ConsistentHash.Remove]
  split
  · exact removeLoop_hashFunc node (List.range h.replicas) h
  · rfl

/-- Remove does not change the replica count. -/
theorem Remove_replicas (h : hash.ConsistentHash) (node : String) :
    (h.Remove node).replicas = h.replicas := by
  simp only [hash.ConsistentHash.Remove]
  split
  · exact removeLoop_replicas node (List.range h.replicas) h
  · rfl

end ringHelpers

/-- Claim C1: for every window reading (accepts, total) with accepts ≥ 0 and
total ≥ 0, the throttle computes drop = max(0, (total − P − k·accepts)/(total+1))
with k = 1.5 and P = 5; when drop ≤ 0 it admits without consulting the
probability source (the result is none for every draw function), and when
drop > 0 it returns the ServiceUnavailable error exactly when the
probability source draws true at probability drop, admitting otherwise. -/
theorem breaker_accept_decision (accepts total : Int)
    (ha : 0 ≤ accepts) (ht : 0 ≤ total) :
    breaker.dropRatio accepts total
      = max 0 (((total : ℚ) - 5 - (3 / 2) * (accepts : ℚ)) / ((total : ℚ) + 1)) ∧
    (breaker.dropRatio accepts total ≤ 0 →
      ∀ draw : ℚ → Bool, breaker.accept accepts total draw = none) ∧
    (0 < breaker.dropRatio accepts total →
      ∀ draw : ℚ → Bool,
        breaker.accept accepts total draw =
          if draw (breaker.dropRatio accepts total) then some Err.serviceUnavailable
          else none) := by
  refine ⟨?_, ?_, ?_⟩
  · unfold breaker.dropRatio breaker.k breaker.protection
    push_cast
    norm_num
  · intro h draw
    unfold breaker.accept
    simp only [if_pos h]
  · intro h draw
    unfold breaker.accept
    rw [if_neg (by exact not_le.mpr h)]

/-- Witness for C1 at accepts = 0, total = 20, where the drop ratio is
15/21 > 0 and an always-true draw yields the unavailable error. -/
theorem breaker_accept_decision_witness :
    breaker.accept 0 20 (fun _ => true) = some Err.serviceUnavailable := by
  have h := breaker_accept_decision 0 20 (by decide) (by decide)
  have hpos : 0 < breaker.dropRatio 0 20 := by
    unfold breaker.dropRatio breaker.k breaker.protection
    rw [lt_max_iff]
    right
    norm_num
  have := h.2.2 hpos (fun _ => true)
  simpa using this

/-- Claim C7: for every window reading with 0 ≤ total ≤ 5 (fewer than six
recorded calls) and accepts ≥ 0, the computed drop ratio is ≤ 0 and accept
returns nil for every possible probability draw: under protection = 5 the
throttle never rejects. -/
theorem breaker_protection_never_rejects (accepts total : Int)
    (ha : 0 ≤ accepts) (ht0 : 0 ≤ total) (ht5 : total ≤ 5) :
    breaker.dropRatio accepts total ≤ 0 ∧
    ∀ draw : ℚ → Bool, breaker.accept accepts total draw = none := by
  have hratio : breaker.dropRatio accepts total ≤ 0 := by
    unfold breaker.dropRatio breaker.k breaker.protection
    simp only
    rw [max_le_iff]
    refine ⟨le_refl 0, ?_⟩
    apply div_nonpos_of_nonpos_of_nonneg
    · push_cast
      have hacc : (0 : ℚ) ≤ 1.5 * (accepts : ℚ) := by
        have : (0 : ℚ) ≤ (accepts : ℚ) := by exact_mod_cast ha
        nlinarith
      have htot : ((total : ℚ)) - 5 ≤ 0 := by
        have : (total : ℚ) ≤ 5 := by exact_mod_cast ht5
        linarith
      linarith
    · push_cast
      have : (0 : ℚ) ≤ (total : ℚ) := by exact_mod_cast ht0
      linarith
  refine ⟨hratio, ?_⟩
  intro draw
  unfold breaker.accept
  simp only [if_pos hratio]

/-- Witness for C7 at accepts = 0, total = 5 with an always-true draw. -/
theorem breaker_protection_never_rejects_witness :
    breaker.dropRatio 0 5 ≤ 0 ∧ breaker.accept 0 5 (fun _ => true) = none := by
  have h := breaker_protection_never_rejects 0 5 (by decide) (by decide) (by decide)
  exact ⟨h.1, h.2 (fun _ => true)⟩

/-- Claim C9: for every doReq(req, fallback, acceptable) call: if admission is
denied with error e and fallback is non-nil, doReq returns fallback e and no
mark is recorded in the rolling window; if admission is denied and fallback is
nil, doReq returns the admission error; if admitted and req returns err, doReq
records exactly one success mark when acceptable err is true and exactly one
failure mark when it is false, and returns err unchanged.  Admission errors
produced by accept are always ServiceUnavailable. -/
theorem breaker_doReq_spec (accepts total : Int) (draw : ℚ → Bool)
    (req : Except Unit (Option Err)) (fallback : Option (Err → Option Err))
    (acceptable : Option Err → Bool) :
    (∀ e, breaker.accept accepts total draw = some e → e = Err.serviceUnavailable) ∧
    (∀ e fb, breaker.accept accepts total draw = some e → fallback = some fb →
      breaker.doReq (breaker.accept accepts total draw) req fallback acceptable
        = (Except.ok (fb e), [])) ∧
    (∀ e, breaker.accept accepts total draw = some e → fallback = none →
      breaker.doReq (breaker.accept accepts total draw) req fallback acceptable
        = (Except.ok (some e), [])) ∧
    (∀ err, breaker.accept accepts total draw = none → req = Except.ok err →
      breaker.doReq (breaker.accept accepts total draw) req fallback acceptable
        = (Except.ok err,
            [if acceptable err then breaker.Mark.success else breaker.Mark.failure])) := by
  refine ⟨?_, ?_, ?_, ?_⟩
  · intro e he
    unfold breaker.accept at he
    by_cases h : breaker.dropRatio accepts total ≤ 0
    · simp [if_pos h] at he
    · rw [if_neg h] at he
      by_cases hd : draw (breaker.dropRatio accepts total)
      · rw [if_pos hd] at he
        exact (Option.some_inj.mp he).symm
      · rw [if_neg hd] at he
        exact absurd he (by simp)
  · intro e fb he hfb
    rw [he, hfb]
    rfl
  · intro e he hfb
    rw [he, hfb]
    rfl
  · intro err hadm hreq
    rw [hadm, hreq]
    unfold breaker.doReq
    by_cases h : acceptable err
    · simp [h]
    · simp [h]

/-- Witness for C9: with accepts = 0, total = 20 and an always-true draw the
call is denied and the nil fallback returns the unavailable error; the
acceptable branch is exercised through the admitted case at an always-false
draw. -/
theorem breaker_doReq_spec_witness :
    breaker.doReq (breaker.accept 0 20 (fun _ => true)) (Except.ok none) none
        (fun e => decide (e = none))
      = (Except.ok (some Err.serviceUnavailable), []) ∧
    breaker.doReq (breaker.accept 0 20 (fun _ => false)) (Except.ok none) none
        (fun e => decide (e = none))
      = (Except.ok none, [breaker.Mark.success]) := by
  have hpos : 0 < breaker.dropRatio 0 20 := by
    unfold breaker.dropRatio breaker.k breaker.protection
    rw [lt_max_iff]
    right
    norm_num
  constructor
  · have h := breaker_doReq_spec 0 20 (fun _ => true) (Except.ok none) none
      (fun e => decide (e = none))
    have hacc : breaker.accept 0 20 (fun _ => true) = some Err.serviceUnavailable := by
      unfold breaker.accept
      rw [if_neg (not_le.mpr hpos)]
      simp
    exact h.2.2.1 Err.serviceUnavailable hacc rfl
  · have h := breaker_doReq_spec 0 20 (fun _ => false) (Except.ok none) none
      (fun e => decide (e = none))
    have hacc : breaker.accept 0 20 (fun _ => false) = none := by
      unfold breaker.accept
      rw [if_neg (not_le.mpr hpos)]
      simp
    have := h.2.2.2 none hacc rfl
    simpa using this

/-- Claim C2: for every Add call on a rolling window of N ≥ 1 buckets, the
rotation first computes span = min(N, floor((now - lastTime)/interval)); when
span = 0 the rotation changes nothing; when span > 0 it resets exactly the
span buckets at positions (offset+1) mod N through (offset+span) mod N (the
positions (offset+i+1) mod N for i < span) to (Sum 0, Count 0), leaves every
other bucket unchanged, and sets offset := (offset + span) mod N. -/
theorem rollingWindow_rotation (rw : collection.RollingWindow) (now : Int)
    (hsize : 1 ≤ rw.size) (hlen : rw.buckets.length = rw.size)
    (hI : 0 < rw.interval) (hnow : rw.lastTime ≤ now) :
    ((rw.span now : Int) = min (rw.size : Int) ((now - rw.lastTime) / rw.interval)) ∧
    (rw.span now = 0 → rw.updateOffset now = rw) ∧
    (0 < rw.span now →
      (rw.updateOffset now).offset = (rw.offset + rw.span now) % rw.size ∧
      (rw.updateOffset now).buckets.length = rw.size ∧
      (∀ j, j < rw.size →
        (rw.updateOffset now).buckets.getD j collection.Bucket.zero =
          if ∃ i, i < rw.span now ∧ j = (rw.offset + i + 1) % rw.size
          then collection.Bucket.zero
          else rw.buckets.getD j collection.Bucket.zero) ∧
      ∀ j : Nat, (∃ i, i < rw.span now ∧ j = (rw.offset + i + 1) % rw.size)
          ↔ ∃ i, 1 ≤ i ∧ i ≤ rw.span now ∧ j = (rw.offset + i) % rw.size) := by
  refine ⟨?_, ?_, ?_⟩
  · have hD : (0 : Int) ≤ now - rw.lastTime := by omega
    have hE : (now - rw.lastTime).tdiv rw.interval = (now - rw.lastTime) / rw.interval :=
      Int.tdiv_eq_ediv hD (le_of_lt hI)
    have hEnn : 0 ≤ (now - rw.lastTime) / rw.interval :=
      Int.ediv_nonneg hD (le_of_lt hI)
    simp only [collection.RollingWindow.span, hE]
    split
    · rename_i h
      omega
    · rename_i h
      omega
  · intro h
    simp only [collection.RollingWindow.updateOffset, h, if_pos]
  · intro h
    have hne : ¬ (rw.span now = 0) := by omega
    refine ⟨?_, ?_, ?_, ?_⟩
    · simp only [collection.RollingWindow.updateOffset, if_neg hne]
    · simp only [collection.RollingWindow.updateOffset, if_neg hne]
      rw [resetLoop_eq_setAll, setAll_length, hlen]
    · intro j hj
      simp only [collection.RollingWindow.updateOffset, if_neg hne]
      rw [resetLoop_eq_setAll, setAll_getD _ _ _ _ j (by rw [hlen]; exact hj)]
      exact if_congr (mem_resetPositions rw.size rw.offset (rw.span now) j) rfl rfl
    · intro j
      exact resetSet_reindex rw.size rw.offset (rw.span now) j

/-- Witness for C2: a 2-bucket window with interval 10, offset 0, read at
now = 15: span is 1 and the rotated offset is 1. -/
theorem rollingWindow_rotation_witness :
    ((⟨2, [collection.Bucket.zero, collection.Bucket.zero], 10, 0, false, 0⟩ :
        collection.RollingWindow).updateOffset 15).offset = 1 := by
  have h := rollingWindow_rotation
    (⟨2, [collection.Bucket.zero, collection.Bucket.zero], 10, 0, false, 0⟩ :
      collection.RollingWindow) 15
    (by decide) (by decide) (by decide) (by decide)
  have hspan : (⟨2, [collection.Bucket.zero, collection.Bucket.zero], 10, 0, false, 0⟩ :
      collection.RollingWindow).span 15 = 1 := by decide
  have h3 := (h.2.2 (by rw [hspan]; exact Nat.one_pos)).1
  rw [hspan] at h3
  simpa using h3

/-- Claim C3: after every rotation performed by Add (the canonical modular
variant), lastTime is advanced to now - ((now - lastTime) mod interval), and
consequently in every state reachable by a trace of Add calls lastTime is
congruent to the construction-time lastTime modulo the interval: rotation
never stores an unaligned clock reading. -/
theorem rollingWindow_lastTime_alignment (rw0 : collection.RollingWindow) :
    (∀ now : Int, 0 < rw0.span now →
      (rw0.updateOffset now).lastTime = now - (now - rw0.lastTime).tmod rw0.interval) ∧
    ∀ trace : List (Int × ℚ),
      rw0.interval ∣
        ((trace.foldl (fun s p => collection.RollingWindow.Add s p.1 p.2) rw0).lastTime
          - rw0.lastTime) := by
  constructor
  · intro now h
    have hne : ¬ (rw0.span now = 0) := by omega
    simp only [collection.RollingWindow.updateOffset, if_neg hne]
  · intro trace
    exact foldAdd_lastTime_dvd trace rw0

/-- Witness for C3: the 2-bucket window rotated at now = 25 stores the
aligned value 20, and a one-step Add trace moves lastTime by a multiple of
the interval. -/
theorem rollingWindow_lastTime_alignment_witness :
    ((⟨2, [collection.Bucket.zero, collection.Bucket.zero], 10, 0, false, 0⟩ :
        collection.RollingWindow).updateOffset 25).lastTime
      = 25 - ((25 : Int) - 0).tmod 10 ∧
    (10 : Int) ∣
      ((([((25 : Int), (1 : ℚ))]).foldl
          (fun s p => collection.RollingWindow.Add s p.1 p.2)
          (⟨2, [collection.Bucket.zero, collection.Bucket.zero], 10, 0, false, 0⟩ :
            collection.RollingWindow)).lastTime
        - 0) := by
  have h := rollingWindow_lastTime_alignment
    (⟨2, [collection.Bucket.zero, collection.Bucket.zero], 10, 0, false, 0⟩ :
      collection.RollingWindow)
  exact ⟨h.1 25 (by decide), by simpa using h.2 [((25 : Int), (1 : ℚ))]⟩

/-- Claim C6: for every Reduce call, with span computed read-only: when
span = 0 on a window constructed with the ignore-current option exactly
size - 1 buckets are reported, otherwise exactly size - span (none when
span = size); the k-th reported bucket is the one at position
(offset + span + 1 + k) mod size, so the report starts at
(offset + span + 1) mod size and walks positions in increasing order
modulo size, oldest first. -/
theorem rollingWindow_reduce_selection (rw : collection.RollingWindow) (now : Int) :
    (rw.reduceVisited now).length
      = (if rw.span now = 0 ∧ rw.ignoreCurrent then rw.size - 1
         else rw.size - rw.span now) ∧
    (rw.span now = rw.size → rw.reduceVisited now = []) ∧
    ∀ k, k < (rw.reduceVisited now).length →
      (rw.reduceVisited now).getD k collection.Bucket.zero
        = rw.buckets.getD ((rw.offset + rw.span now + 1 + k) % rw.size)
            collection.Bucket.zero := by
  refine ⟨?_, ?_, ?_⟩
  · simp only [collection.RollingWindow.reduceVisited, collection.window.reduceList]
    by_cases hd : 0 < (if rw.span now = 0 ∧ rw.ignoreCurrent then rw.size - 1
        else rw.size - rw.span now)
    · rw [if_pos hd, List.length_map, List.length_range]
    · rw [if_neg hd]
      simp only [List.length_nil]
      omega
  · intro hspan
    have hd0 : (if rw.span now = 0 ∧ rw.ignoreCurrent then rw.size - 1
        else rw.size - rw.span now) = 0 := by
      by_cases hc : rw.span now = 0 ∧ rw.ignoreCurrent
      · obtain ⟨hc1, hc2⟩ := hc
        rw [if_pos ⟨hc1, hc2⟩]
        omega
      · rw [if_neg hc]
        omega
    simp only [collection.RollingWindow.reduceVisited, hd0]
    simp
  · intro k hk
    simp only [collection.RollingWindow.reduceVisited, collection.window.reduceList] at hk ⊢
    by_cases hd : 0 < (if rw.span now = 0 ∧ rw.ignoreCurrent then rw.size - 1
        else rw.size - rw.span now)
    · rw [if_pos hd] at hk ⊢
      rw [List.getD_eq_getElem _ _ hk]
      simp only [List.getElem_map, List.getElem_range]
      rw [Nat.mod_add_mod]
    · rw [if_neg hd] at hk
      simp at hk

/-- Witness for C6: a 2-bucket window with distinct buckets, span 0 and the
current bucket included: the first reported bucket is the one at position 1. -/
theorem rollingWindow_reduce_selection_witness :
    ((⟨2, [⟨1, 1⟩, ⟨2, 1⟩], 10, 0, false, 0⟩ :
        collection.RollingWindow).reduceVisited 5).getD 0 collection.Bucket.zero
      = (⟨2, 1⟩ : collection.Bucket) := by
  have h := rollingWindow_reduce_selection
    (⟨2, [⟨1, 1⟩, ⟨2, 1⟩], 10, 0, false, 0⟩ : collection.RollingWindow) 5
  have h3 := h.2.2 0 (by decide)
  simpa using h3

/-- Claim C10: for every bucket count N ≥ 1, offset in [0, N) and span in
[1, N], the modular-arithmetic rotation routine and the split-loop
(wrap-around) rotation routine reset exactly the same set of bucket positions
(offset+i+1) mod N for i < span, produce the same final offset
(offset + span) mod N, and agree on every field except lastTime, where the
modular variant stores the aligned value and the split variant stores the
raw clock reading. -/
theorem rotation_variants_equivalent (rw : collection.RollingWindow) (now : Int)
    (hsize : 1 ≤ rw.size) (hlen : rw.buckets.length = rw.size)
    (hoff : rw.offset < rw.size) (hs : 1 ≤ rw.span now) :
    (rw.updateOffsetSplit now).buckets = (rw.updateOffset now).buckets ∧
    (rw.updateOffsetSplit now).offset = (rw.updateOffset now).offset ∧
    (rw.updateOffset now).offset = (rw.offset + rw.span now) % rw.size ∧
    (∀ j, j < rw.size →
      (rw.updateOffsetSplit now).buckets.getD j collection.Bucket.zero =
        if ∃ i, i < rw.span now ∧ j = (rw.offset + i + 1) % rw.size
        then collection.Bucket.zero
        else rw.buckets.getD j collection.Bucket.zero) ∧
    (rw.updateOffsetSplit now).size = (rw.updateOffset now).size ∧
    (rw.updateOffsetSplit now).interval = (rw.updateOffset now).interval ∧
    (rw.updateOffsetSplit now).ignoreCurrent = (rw.updateOffset now).ignoreCurrent ∧
    (rw.updateOffsetSplit now).lastTime = now ∧
    (rw.updateOffset now).lastTime = now - (now - rw.lastTime).tmod rw.interval := by
  have hsN := span_le_size rw now
  have hne : ¬ (rw.span now = 0) := by omega
  have hpos : 0 < rw.span now := hs
  have hbSplit : (rw.updateOffsetSplit now).buckets
      = (List.range' (rw.offset + 1)
          ((if rw.offset + 1 + rw.span now > rw.size then rw.size
            else rw.offset + 1 + rw.span now) - (rw.offset + 1))
         ++ List.range (if rw.offset + 1 + rw.span now > rw.size
            then rw.offset + 1 + rw.span now - rw.size else 0)).foldl
          (fun b i => b.set i collection.Bucket.zero) rw.buckets := by
    simp only [collection.RollingWindow.updateOffsetSplit, if_pos hpos]
    rw [pairFold_fst, pairFold_fst, List.foldl_append]
  have hbMod : (rw.updateOffset now).buckets
      = ((List.range (rw.span now)).map
          (fun i => (rw.offset + i + 1) % rw.size % rw.size)).foldl
          (fun b p => b.set p collection.Bucket.zero) rw.buckets := by
    simp only [collection.RollingWindow.updateOffset, if_neg hne]
    exact resetLoop_eq_setAll rw.buckets rw.size rw.offset (rw.span now)
  have hmem : ∀ j : Nat,
      (j ∈ List.range' (rw.offset + 1)
          ((if rw.offset + 1 + rw.span now > rw.size then rw.size
            else rw.offset + 1 + rw.span now) - (rw.offset + 1))
         ++ List.range (if rw.offset + 1 + rw.span now > rw.size
            then rw.offset + 1 + rw.span now - rw.size else 0))
        ↔ j ∈ (List.range (rw.span now)).map
            (fun i => (rw.offset + i + 1) % rw.size % rw.size) := by
    intro j
    exact (splitPositions_mem_iff rw.size rw.offset (rw.span now) j hoff hs hsN).trans
      (mem_resetPositions rw.size rw.offset (rw.span now) j).symm
  have hbeq : (rw.updateOffsetSplit now).buckets = (rw.updateOffset now).buckets := by
    rw [hbSplit, hbMod]
    exact setAll_congr_mem _ _ _ _ hmem
  have hoMod : (rw.updateOffset now).offset = (rw.offset + rw.span now) % rw.size := by
    simp only [collection.RollingWindow.updateOffset, if_neg hne]
  have hoSplit : (rw.updateOffsetSplit now).offset = (rw.offset + rw.span now) % rw.size := by
    simp only [collection.RollingWindow.updateOffsetSplit, if_pos hpos]
    rw [pairFold_snd, pairFold_snd, foldl_last_range, foldl_last_range']
    by_cases hw : rw.offset + 1 + rw.span now > rw.size
    · simp only [if_pos hw]
      rw [if_neg (by omega : ¬ (rw.offset + 1 + rw.span now - rw.size = 0))]
      rw [Nat.mod_eq_sub_mod (by omega), Nat.mod_eq_of_lt (by omega)]
      omega
    · simp only [if_neg hw]
      rw [if_pos trivial]
      rw [if_neg (by omega : ¬ (rw.offset + 1 + rw.span now - (rw.offset + 1) = 0))]
      rw [Nat.mod_eq_of_lt (by omega)]
      omega
  refine ⟨hbeq, ?_, hoMod, ?_, ?_, ?_, ?_, ?_, ?_⟩
  · rw [hoSplit, hoMod]
  · intro j hj
    rw [hbSplit, setAll_getD _ _ _ _ j (by rw [hlen]; exact hj)]
    exact if_congr
      (splitPositions_mem_iff rw.size rw.offset (rw.span now) j hoff hs hsN) rfl rfl
  · simp only [collection.RollingWindow.updateOffsetSplit, if_pos hpos,
      collection.RollingWindow.updateOffset, if_neg hne]
  · simp only [collection.RollingWindow.updateOffsetSplit, if_pos hpos,
      collection.RollingWindow.updateOffset, if_neg hne]
  · simp only [collection.RollingWindow.updateOffsetSplit, if_pos hpos,
      collection.RollingWindow.updateOffset, if_neg hne]
  · simp only [collection.RollingWindow.updateOffsetSplit, if_pos hpos]
  · simp only [collection.RollingWindow.updateOffset, if_neg hne]

/-- Witness for C10: a 3-bucket window at offset 2 with span 2 (the
wrap-around case): the split rotation lands on offset 1 and produces the same
buckets as the modular rotation. -/
theorem rotation_variants_equivalent_witness :
    ((⟨3, [⟨1, 1⟩, ⟨2, 1⟩, ⟨3, 1⟩], 10, 2, false, 0⟩ :
        collection.RollingWindow).updateOffsetSplit 25).offset = 1 ∧
    ((⟨3, [⟨1, 1⟩, ⟨2, 1⟩, ⟨3, 1⟩], 10, 2, false, 0⟩ :
        collection.RollingWindow).updateOffsetSplit 25).buckets
      = ((⟨3, [⟨1, 1⟩, ⟨2, 1⟩, ⟨3, 1⟩], 10, 2, false, 0⟩ :
          collection.RollingWindow).updateOffset 25).buckets := by
  have h := rotation_variants_equivalent
    (⟨3, [⟨1, 1⟩, ⟨2, 1⟩, ⟨3, 1⟩], 10, 2, false, 0⟩ : collection.RollingWindow) 25
    (by decide) (by decide) (by decide) (by decide)
  have hspan : (⟨3, [⟨1, 1⟩, ⟨2, 1⟩, ⟨3, 1⟩], 10, 2, false, 0⟩ :
      collection.RollingWindow).span 25 = 2 := by decide
  refine ⟨?_, h.1⟩
  have h2 := h.2.1
  rw [h.2.2.1, hspan] at h2
  simpa using h2

/-- Claim C4: in every execution of Do or DoEx, whether fn returns an error
or panics, the executing call deletes the key from the group's call index
strictly before it releases the completion signal; the signal is always
released, and along the whole trace no state is reachable in which the
completion signal has been released while the key still maps to the record. -/
theorem sharedCalls_remove_before_signal (outcome : Except Unit Unit) :
    syncx.CallEvent.wgDone ∈ syncx.doExecTrace outcome ∧
    syncx.CallEvent.deleteKey ∈ syncx.doExecTrace outcome ∧
    (syncx.doExecTrace outcome).indexOf syncx.CallEvent.deleteKey
      < (syncx.doExecTrace outcome).indexOf syncx.CallEvent.wgDone ∧
    ∀ n : Nat,
      (((syncx.doExecTrace outcome).take n).foldl syncx.stepEvent
          { hasKey := false, doneSignalled := false }).doneSignalled = true →
      (((syncx.doExecTrace outcome).take n).foldl syncx.stepEvent
          { hasKey := false, doneSignalled := false }).hasKey = false := by
  obtain u | u := outcome
  · cases u
    refine ⟨by decide, by decide, by decide, ?_⟩
    intro n
    by_cases hn : n < 8
    · interval_cases n <;> decide
    · rw [List.take_of_length_le (le_trans (by decide) (by omega : 8 ≤ n))]
      decide
  · cases u
    refine ⟨by decide, by decide, by decide, ?_⟩
    intro n
    by_cases hn : n < 8
    · interval_cases n <;> decide
    · rw [List.take_of_length_le (le_trans (by decide) (by omega : 8 ≤ n))]
      decide

/-- Witness for C4 on the panicking path: after seven events (through the
completion signal) the key is no longer in the index. -/
theorem sharedCalls_remove_before_signal_witness :
    syncx.CallEvent.wgDone ∈ syncx.doExecTrace (Except.error ()) ∧
    (((syncx.doExecTrace (Except.error ())).take 7).foldl syncx.stepEvent
        { hasKey := false, doneSignalled := false }).hasKey = false := by
  have h := sharedCalls_remove_before_signal (Except.error ())
  exact ⟨h.1, h.2.2.2 7 (by decide)⟩

/-- C5 counterexample: the claim asserts the effective replica count is
clamped to at least 1, so at least one virtual position is always inserted;
but AddWithReplicas with replicas = 0 on a fresh ring inserts no key at all
while still registering the node. -/
theorem addWithReplicas_lower_clamp_counterexample :
    ((hash.NewCustomConsistentHash 100 (fun s => s.length)).AddWithReplicas ("a") 0).keys
      = [] ∧
    ("a") ∈ ((hash.NewCustomConsistentHash 100 (fun s => s.length)).AddWithReplicas
      ("a") 0).nodes := by
  constructor
  · have e : ((hash.NewCustomConsistentHash 100 (fun s => s.length)).AddWithReplicas
        ("a") 0).keys = (List.mergeSort ([] : List Nat)) := rfl
    rw [e, List.mergeSort_nil]
  · exact List.mem_cons_self _ _

/-- Claim C5, amended: for every AddWithReplicas(node, replicas) call, the
effective number of inserted virtual positions is min(replicas,
default_replicas) truncated at zero — the count is clamped from above by the
ring's default but there is no lower clamp to 1, so replicas ≤ 0 insert no
virtual position (the counterexample) — and any prior entry for the node is
removed first: the resulting keys are a sorted permutation of the keys after
Remove(node) plus exactly the new virtual hashes, and the node is registered
in the node set. -/
theorem addWithReplicas_amended (h : hash.ConsistentHash) (node : String)
    (replicas : Int) :
    (h.AddWithReplicas node replicas).keys.Perm
      ((h.Remove node).keys
        ++ (List.range (min replicas ((h.replicas : Int))).toNat).map
            (fun i => h.hashFunc (node ++ toString i))) ∧
    (h.AddWithReplicas node replicas).keys.length
      = (h.Remove node).keys.length + (min replicas ((h.replicas : Int))).toNat ∧
    node ∈ (h.AddWithReplicas node replicas).nodes ∧
    (h.AddWithReplicas node replicas).keys.Sorted (· ≤ ·) := by
  have hreps : (if replicas > ((h.Remove node).replicas : Int)
      then ((h.Remove node).replicas : Int) else replicas)
      = min replicas ((h.replicas : Int)) := by
    rw [Remove_replicas]
    by_cases hr : replicas > (h.replicas : Int)
    · rw [if_pos hr]
      omega
    · rw [if_neg hr]
      omega
  have hAddEq : h.AddWithReplicas node replicas
      = { (List.range (min replicas ((h.replicas : Int))).toNat).foldl
            (hash.addStep node) ((h.Remove node).addNode node) with
          keys := ((List.range (min replicas ((h.replicas : Int))).toNat).foldl
            (hash.addStep node) ((h.Remove node).addNode node)).keys.mergeSort } := by
    simp only [hash.ConsistentHash.AddWithReplicas]
    rw [hreps]
  have hA3_keys : ((List.range (min replicas ((h.replicas : Int))).toNat).foldl
      (hash.addStep node) ((h.Remove node).addNode node)).keys
      = (h.Remove node).keys
        ++ (List.range (min replicas ((h.replicas : Int))).toNat).map
            (fun i => (h.Remove node).hashFunc (node ++ toString i)) :=
    addLoop_keys node _ _
  have hhf : (h.Remove node).hashFunc = h.hashFunc := Remove_hashFunc h node
  have hkeysEq : (h.AddWithReplicas node replicas).keys
      = ((h.Remove node).keys
        ++ (List.range (min replicas ((h.replicas : Int))).toNat).map
            (fun i => h.hashFunc (node ++ toString i))).mergeSort := by
    rw [hAddEq]
    show ((List.range (min replicas ((h.replicas : Int))).toNat).foldl
        (hash.addStep node) ((h.Remove node).addNode node)).keys.mergeSort = _
    rw [hA3_keys, hhf]
  have hperm : (h.AddWithReplicas node replicas).keys.Perm
      ((h.Remove node).keys
        ++ (List.range (min replicas ((h.replicas : Int))).toNat).map
            (fun i => h.hashFunc (node ++ toString i))) := by
    rw [hkeysEq]
    exact List.mergeSort_perm _ _
  refine ⟨hperm, ?_, ?_, ?_⟩
  · rw [hperm.length_eq, List.length_append, List.length_map, List.length_range]
  · rw [hAddEq]
    show node ∈ ((List.range (min replicas ((h.replicas : Int))).toNat).foldl
        (hash.addStep node) ((h.Remove node).addNode node)).nodes
    rw [addLoop_nodes]
    exact mem_addNode _ _
  · rw [hkeysEq]
    exact List.sorted_mergeSort' _

/-- Claim C8: adding a node n with Add (the default replica count) to a ring
that contains no trace of n — its virtual hashes are absent from keys, no
bucket holds it, and it is not in the node set — and then removing it leaves
no virtual position for n: none of n's virtual hashes is in keys (indeed the
keys return to a permutation of the original), no ring bucket contains n,
and n is absent from the node set. -/
theorem add_remove_no_residue (h : hash.ConsistentHash) (n : String)
    (hsort : h.keys.Sorted (· ≤ ·))
    (hkeys : ∀ i, i < h.replicas → h.hashFunc (n ++ toString i) ∉ h.keys)
    (hring : ∀ hsh : Nat, n ∉ h.ring hsh)
    (hnode : n ∉ h.nodes) :
    (∀ i, i < h.replicas → h.hashFunc (n ++ toString i) ∉ ((h.Add n).Remove n).keys) ∧
    (∀ hsh : Nat, n ∉ ((h.Add n).Remove n).ring hsh) ∧
    n ∉ ((h.Add n).Remove n).nodes ∧
    ((h.Add n).Remove n).keys.Perm h.keys := by
  have hcontF : ¬ (h.containsNode n = true) := fun hc => hnode (List.elem_iff.mp hc)
  have hRem1 : h.Remove n = h := by
    simp only [hash.ConsistentHash.Remove]
    rw [if_neg hcontF]
  have hAddEq : h.Add n
      = { (List.range h.replicas).foldl (hash.addStep n) (h.addNode n) with
          keys := ((List.range h.replicas).foldl (hash.addStep n)
            (h.addNode n)).keys.mergeSort } := by
    simp only [hash.ConsistentHash.Add, hash.ConsistentHash.AddWithReplicas]
    rw [hRem1, if_neg (lt_irrefl ((h.replicas : Int))), Int.toNat_ofNat]
  have haddNode_hf : (h.addNode n).hashFunc = h.hashFunc := rfl
  have haddNode_ring : (h.addNode n).ring = h.ring := rfl
  have haddNode_keys : (h.addNode n).keys = h.keys := rfl
  have hA_keys : (h.Add n).keys
      = (h.keys ++ (List.range h.replicas).map
          (fun i => h.hashFunc (n ++ toString i))).mergeSort := by
    rw [hAddEq]
    show ((List.range h.replicas).foldl (hash.addStep n) (h.addNode n)).keys.mergeSort = _
    rw [addLoop_keys, haddNode_hf, haddNode_keys]
  have hA_hashFunc : (h.Add n).hashFunc = h.hashFunc := by
    rw [hAddEq]
    show ((List.range h.replicas).foldl (hash.addStep n) (h.addNode n)).hashFunc = _
    rw [addLoop_hashFunc, haddNode_hf]
  have hA_replicas : (h.Add n).replicas = h.replicas := by
    rw [hAddEq]
    show ((List.range h.replicas).foldl (hash.addStep n) (h.addNode n)).replicas = _
    rw [addLoop_replicas]
    rfl
  have hA_nodes : (h.Add n).nodes = n :: h.nodes := by
    rw [hAddEq]
    show ((List.range h.replicas).foldl (hash.addStep n) (h.addNode n)).nodes = _
    rw [addLoop_nodes]
    simp only [hash.ConsistentHash.addNode]
    have hcontF2 : ¬ (h.nodes.contains n = true) := hcontF
    rw [if_neg hcontF2]
  have hA_sorted : (h.Add n).keys.Sorted (· ≤ ·) := by
    rw [hA_keys]
    exact List.sorted_mergeSort' _
  have hA_perm : (h.Add n).keys.Perm
      (h.keys ++ (List.range h.replicas).map (fun i => h.hashFunc (n ++ toString i))) := by
    rw [hA_keys]
    exact List.mergeSort_perm _ _
  have hcontE : (h.Add n).containsNode n = true := by
    simp only [hash.ConsistentHash.containsNode]
    rw [hA_nodes]
    exact List.elem_iff.mpr (List.mem_cons_self _ _)
  have hfinal : (h.Add n).Remove n
      = ((List.range h.replicas).foldl (hash.removeStep n) (h.Add n)).removeNode n := by
    simp only [hash.ConsistentHash.Remove]
    rw [if_pos hcontE, hA_replicas]
  have hRperm : (((List.range h.replicas).foldl (hash.removeStep n) (h.Add n)).keys).Perm
      h.keys := by
    apply removeLoop_keys_perm n (List.range h.replicas) (h.Add n) h.keys hA_sorted
    · rw [hA_hashFunc]
      exact hA_perm
    · intro i hi
      rw [hA_hashFunc]
      exact hkeys i (List.mem_range.mp hi)
  have hfinal_keys : ((h.Add n).Remove n).keys
      = ((List.range h.replicas).foldl (hash.removeStep n) (h.Add n)).keys := by
    rw [hfinal]
    rfl
  refine ⟨?_, ?_, ?_, ?_⟩
  · intro i hi
    rw [hfinal_keys]
    intro hmem
    exact hkeys i hi (hRperm.mem_iff.mp hmem)
  · intro hsh hmem
    have hmem' : n ∈ (((List.range h.replicas).foldl (hash.removeStep n)
        (h.Add n)).ring hsh) := by
      rw [hfinal] at hmem
      exact hmem
    obtain ⟨h1, h2⟩ := removeLoop_ring n (List.range h.replicas) (h.Add n) hsh hmem'
    simp only [hA_hashFunc] at h2
    have hAring : n ∈ (((List.range h.replicas).foldl (hash.addStep n)
        (h.addNode n)).ring hsh) := by
      rw [hAddEq] at h1
      exact h1
    rcases addLoop_ring n (List.range h.replicas) (h.addNode n) hsh n hAring with
      h3 | ⟨_, i, hi, hh⟩
    · rw [haddNode_ring] at h3
      exact hring hsh h3
    · rw [haddNode_hf] at hh
      exact h2 i hi hh
  · rw [hfinal]
    show n ∉ (((List.range h.replicas).foldl (hash.removeStep n)
        (h.Add n)).nodes).erase n
    rw [removeLoop_nodes, hA_nodes, List.erase_cons_head]
    exact hnode
  · rw [hfinal_keys]
    exact hRperm

/-- Witness for C8: a small ring with two replicas per node, empty keys,
empty buckets and empty node set; after Add then Remove of node a, node a is
absent from the node set and from the bucket at hash 5. -/
theorem add_remove_no_residue_witness :
    ("a") ∉ (((⟨(fun s => s.length), 2, [], fun _ => [], []⟩ :
        hash.ConsistentHash).Add ("a")).Remove ("a")).nodes ∧
    ("a") ∉ (((⟨(fun s => s.length), 2, [], fun _ => [], []⟩ :
        hash.ConsistentHash).Add ("a")).Remove ("a")).ring 5 := by
  have h := add_remove_no_residue
    (⟨(fun s => s.length), 2, [], fun _ => [], []⟩ : hash.ConsistentHash) ("a")
    (by simp) (by simp) (by simp) (by simp)
  exact ⟨h.2.2.1, h.2.1 5⟩
